import Mathlib

/-!
Verification of the 2D bit-grid (bit2.c) and the border flood fill
(unblackedges.c).

The grid is a width x height array of bits stored in a flat backing list
at index row * width + col.  Checked operations return Except values whose
error constructors mirror the failure taxonomy (InvalidDimensions,
OutOfBounds, InvalidValue) that the C sources enforce with assertions.
The flood fill seeds a FIFO work queue (modelled as a list: enqueue at the
back, dequeue at the front, exactly like the linked queue in the C file)
with every black border pixel, clearing each pixel as it is enqueued, and
then expands to 4-connected neighbours until the queue drains.
-/

/-- Failure taxonomy of the grid operations. -/
inductive Bit2Err where
  | InvalidDimensions : Bit2Err
  | OutOfBounds : Bit2Err
  | InvalidValue : Bit2Err
deriving DecidableEq, Repr

/-- The Bit2_T structure of bit2.c: width, height and the flat backing
store of width * height bits, indexed by row * width + col. -/
structure Bit2 where
  width : Int
  height : Int
  data : List Int
deriving DecidableEq, Repr

/-- Bit2_width from bit2.c. -/
def Bit2_width (bit2 : Bit2) : Int := bit2.width

/-- Bit2_height from bit2.c. -/
def Bit2_height (bit2 : Bit2) : Int := bit2.height

/-- Bit2_new from bit2.c: asserts positive dimensions, allocates a
zero-initialized backing store of width * height bits. -/
def Bit2_new (width height : Int) : Except Bit2Err Bit2 :=
  if 0 < width ∧ 0 < height then
    Except.ok { width := width, height := height,
                data := List.replicate (width * height).toNat 0 }
  else Except.error Bit2Err.InvalidDimensions

/-- Bit2_get from bit2.c: asserts the coordinate bounds, then reads the
backing store at index row * width + col. -/
def Bit2_get (bit2 : Bit2) (col row : Int) : Except Bit2Err Int :=
  if 0 ≤ col ∧ col < bit2.width ∧ 0 ≤ row ∧ row < bit2.height then
    Except.ok (bit2.data.getD (row * bit2.width + col).toNat 0)
  else Except.error Bit2Err.OutOfBounds

/-- Bit2_put from bit2.c: asserts the coordinate bounds and that the value
is 0 or 1, then stores it at index row * width + col and returns the value
previously held there together with the updated grid. -/
def Bit2_put (bit2 : Bit2) (col row value : Int) : Except Bit2Err (Int × Bit2) :=
  if 0 ≤ col ∧ col < bit2.width ∧ 0 ≤ row ∧ row < bit2.height then
    if value = 0 ∨ value = 1 then
      Except.ok (bit2.data.getD (row * bit2.width + col).toNat 0,
                 { bit2 with data := bit2.data.set (row * bit2.width + col).toNat value })
    else Except.error Bit2Err.InvalidValue
  else Except.error Bit2Err.OutOfBounds

/-- Bit2_map_row_major from bit2.c: row 0 first, columns left to right
inside each row, reading the current value with Bit2_get and passing it to
the visitor; the closure argument cl is threaded through the visits. -/
def Bit2_map_row_major {σ : Type} (bit2 : Bit2)
    (visit : Int → Int → Int → σ → σ) (cl : σ) : σ :=
  (List.range bit2.height.toNat).foldl
    (fun s (row : Nat) =>
      (List.range bit2.width.toNat).foldl
        (fun s2 (col : Nat) =>
          match Bit2_get bit2 (col : Int) (row : Int) with
          | Except.ok elem => visit (col : Int) (row : Int) elem s2
          | Except.error _ => s2) s) cl

/-- Bit2_map_col_major from bit2.c: column 0 first, rows top to bottom
inside each column. -/
def Bit2_map_col_major {σ : Type} (bit2 : Bit2)
    (visit : Int → Int → Int → σ → σ) (cl : σ) : σ :=
  (List.range bit2.width.toNat).foldl
    (fun s (col : Nat) =>
      (List.range bit2.height.toNat).foldl
        (fun s2 (row : Nat) =>
          match Bit2_get bit2 (col : Int) (row : Int) with
          | Except.ok elem => visit (col : Int) (row : Int) elem s2
          | Except.error _ => s2) s) cl

/-- Raw pixel read: the value the backing store holds at the slot of
(col, row).  Bit2_get returns exactly this value when in bounds. -/
def pix (b : Bit2) (col row : Int) : Int :=
  b.data.getD (row * b.width + col).toNat 0

/-- The bounds predicate shared by Bit2_get, Bit2_put and the guard of
enqueue_if_black. -/
def inB (b : Bit2) (col row : Int) : Prop :=
  0 ≤ col ∧ col < b.width ∧ 0 ≤ row ∧ row < b.height

instance inB_dec (b : Bit2) (col row : Int) : Decidable (inB b col row) := by
  unfold inB; infer_instance

/-- Well-formed grid: the backing store has exactly width * height slots,
as Bit2_new allocates it. -/
def wellFormed (b : Bit2) : Prop :=
  b.data.length = (b.width * b.height).toNat

instance wellFormed_dec (b : Bit2) : Decidable (wellFormed b) := by
  unfold wellFormed; infer_instance

/-- Effect of the write performed by enqueue_if_black: clear the slot of
(col, row) to white. -/
def setPix0 (b : Bit2) (col row : Int) : Bit2 :=
  { b with data := b.data.set (row * b.width + col).toNat 0 }

/-- enqueue_if_black from unblackedges.c: if (col, row) is in bounds and
the pixel there is black, clear it to white and append the coordinate to
the back of the work queue; otherwise leave queue and grid untouched. -/
def enqueue_if_black (q : List (Int × Int)) (bitmap : Bit2)
    (col row : Int) : List (Int × Int) × Bit2 :=
  let width := Bit2_width bitmap
  let height := Bit2_height bitmap
  if 0 ≤ col ∧ col < width ∧ 0 ≤ row ∧ row < height then
    match Bit2_get bitmap col row with
    | Except.ok v =>
        if v = 1 then
          match Bit2_put bitmap col row 0 with
          | Except.ok pb => (q ++ [(col, row)], pb.2)
          | Except.error _ => (q, bitmap)
        else (q, bitmap)
    | Except.error _ => (q, bitmap)
  else (q, bitmap)

/-- The border coordinates tested by the seed phase of remove_black_edges,
in program order: for col in [0, width) the pixels (col, 0) and
(col, height - 1), then for row in [1, height - 1) the pixels (0, row) and
(width - 1, row). -/
def seedCoords (width height : Int) : List (Int × Int) :=
  ((List.range width.toNat).flatMap
    (fun c => [((c : Int), 0), ((c : Int), height - 1)])) ++
  ((List.range (height - 2).toNat).flatMap
    (fun i => [(0, (i : Int) + 1), (width - 1, (i : Int) + 1)]))

/-- Number of black pixels in the backing store; the flood fill strictly
decreases it with every enqueue, which bounds the total work. -/
def blackCount (b : Bit2) : Nat := List.count 1 b.data

/-- First neighbour test of one expansion-loop iteration: left. -/
def expA (q : List (Int × Int)) (bitmap : Bit2) (col row : Int) :
    List (Int × Int) × Bit2 :=
  enqueue_if_black q bitmap (col - 1) row

/-- Second neighbour test: right. -/
def expB (q : List (Int × Int)) (bitmap : Bit2) (col row : Int) :
    List (Int × Int) × Bit2 :=
  enqueue_if_black (expA q bitmap col row).1 (expA q bitmap col row).2
    (col + 1) row

/-- Third neighbour test: up. -/
def expC (q : List (Int × Int)) (bitmap : Bit2) (col row : Int) :
    List (Int × Int) × Bit2 :=
  enqueue_if_black (expB q bitmap col row).1 (expB q bitmap col row).2
    col (row - 1)

/-- Body of one iteration of the expansion loop of remove_black_edges:
test the four 4-connected neighbours of a dequeued coordinate, in the
order left, right, up, down. -/
def expand (q : List (Int × Int)) (bitmap : Bit2) (col row : Int) :
    List (Int × Int) × Bit2 :=
  enqueue_if_black (expC q bitmap col row).1 (expC q bitmap col row).2
    col (row + 1)

/-- Setting a slot that holds 1 to 0 removes exactly one black slot. -/
theorem count_one_set_zero (l : List Int) (i : Nat) (h1 : l.getD i 0 = 1) :
    List.count 1 (l.set i 0) + 1 = List.count 1 l := by
  have hlen : i < l.length := by
    by_contra hc
    push_neg at hc
    rw [List.getD_eq_getElem?_getD, List.getElem?_eq_none hc] at h1
    simp at h1
  have hget : l[i] = 1 := by
    rw [List.getD_eq_getElem?_getD, List.getElem?_eq_getElem hlen] at h1
    simpa using h1
  have hpos : 0 < List.count 1 l :=
    List.count_pos_iff.mpr (by rw [← hget]; exact List.getElem_mem hlen)
  rw [List.count_set 0 1 l i hlen]
  simp [hget]
  omega

/-- Normal form of enqueue_if_black: all the Except plumbing resolved. -/
theorem enqueue_eq (q : List (Int × Int)) (b : Bit2) (c r : Int) :
    enqueue_if_black q b c r =
      if 0 ≤ c ∧ c < b.width ∧ 0 ≤ r ∧ r < b.height ∧ pix b c r = 1 then
        (q ++ [(c, r)], setPix0 b c r)
      else (q, b) := by
  unfold enqueue_if_black Bit2_width Bit2_height Bit2_get Bit2_put pix setPix0
  by_cases h1 : 0 ≤ c ∧ c < b.width ∧ 0 ≤ r ∧ r < b.height
  · by_cases h2 : b.data.getD (r * b.width + c).toNat 0 = 1
    · simp [h1, h2]
    · simp [h1, h2]
  · simp only [if_neg h1]
    rw [if_neg (by tauto)]

/-- One enqueue test never increases the termination measure. -/
theorem enqueue_measure (q : List (Int × Int)) (b : Bit2) (c r : Int) :
    5 * blackCount (enqueue_if_black q b c r).2 +
      (enqueue_if_black q b c r).1.length ≤ 5 * blackCount b + q.length := by
  rw [enqueue_eq]
  split_ifs with h
  · have hcount := count_one_set_zero b.data (r * b.width + c).toNat h.2.2.2.2
    simp only [blackCount, setPix0, List.length_append, List.length_cons,
      List.length_nil]
    omega
  · exact le_refl _

/-- A full neighbour expansion never increases the termination measure. -/
theorem expand_measure (q : List (Int × Int)) (b : Bit2) (c r : Int) :
    5 * blackCount (expand q b c r).2 + (expand q b c r).1.length ≤
      5 * blackCount b + q.length := by
  unfold expand expC expB expA
  exact le_trans (enqueue_measure _ _ c (r + 1))
    (le_trans (enqueue_measure _ _ c (r - 1))
      (le_trans (enqueue_measure _ _ (c + 1) r)
        (enqueue_measure q b (c - 1) r)))

/-- Expansion loop of remove_black_edges: dequeue the front coordinate and
test its four neighbours until the queue is empty.  Terminates because
every enqueue clears one black pixel, so 5 * blackCount + queue length
strictly decreases with every dequeue. -/
def bfs_loop (bitmap : Bit2) (q : List (Int × Int)) : Bit2 :=
  match q with
  | [] => bitmap
  | (col, row) :: rest =>
      bfs_loop (expand rest bitmap col row).2 (expand rest bitmap col row).1
termination_by 5 * blackCount bitmap + q.length
decreasing_by
  have h := expand_measure rest bitmap col row
  simp only [List.length_cons]
  omega

/-- Instrumented expansion loop: also returns the list of coordinates
dequeued, in dequeue order.  Computes the same final grid as bfs_loop. -/
def bfs_trace (bitmap : Bit2) (q : List (Int × Int))
    (done : List (Int × Int)) : Bit2 × List (Int × Int) :=
  match q with
  | [] => (bitmap, done)
  | (col, row) :: rest =>
      bfs_trace (expand rest bitmap col row).2 (expand rest bitmap col row).1
        (done ++ [(col, row)])
termination_by 5 * blackCount bitmap + q.length
decreasing_by
  have h := expand_measure rest bitmap col row
  simp only [List.length_cons]
  omega

/-- remove_black_edges from unblackedges.c: seed the queue with the black
border pixels (clearing them), then run the expansion loop. -/
def remove_black_edges (bitmap : Bit2) : Bit2 :=
  let s := (seedCoords (Bit2_width bitmap) (Bit2_height bitmap)).foldl
      (fun t p => enqueue_if_black t.1 t.2 p.1 p.2) ([], bitmap)
  bfs_loop s.2 s.1

/-- Instrumented remove_black_edges: same seed phase, expansion loop
instrumented with the dequeue trace. -/
def remove_black_edges_trace (bitmap : Bit2) : Bit2 × List (Int × Int) :=
  let s := (seedCoords (Bit2_width bitmap) (Bit2_height bitmap)).foldl
      (fun t p => enqueue_if_black t.1 t.2 p.1 p.2) ([], bitmap)
  bfs_trace s.2 s.1 []

/-- 4-connectivity: the neighbour relation used by the expansion loop. -/
def adjP (c r c2 r2 : Int) : Prop :=
  (c2 = c - 1 ∧ r2 = r) ∨ (c2 = c + 1 ∧ r2 = r) ∨
  (c2 = c ∧ r2 = r - 1) ∨ (c2 = c ∧ r2 = r + 1)

instance adjP_dec (c r c2 r2 : Int) : Decidable (adjP c r c2 r2) := by
  unfold adjP; infer_instance

/-- Border predicate: the pixel lies on row 0, the last row, column 0 or
the last column of the grid. -/
def onBorder (b : Bit2) (col row : Int) : Prop :=
  col = 0 ∨ col = b.width - 1 ∨ row = 0 ∨ row = b.height - 1

instance onBorder_dec (b : Bit2) (col row : Int) : Decidable (onBorder b col row) := by
  unfold onBorder; infer_instance

/-- Reachability along 4-connected black pixels from the border of grid g:
the set of pixels the flood fill is specified to clear.  The base case is
an in-bounds black border pixel; each step moves to an in-bounds black
4-connected neighbour. -/
inductive Reaches (g : Bit2) : Int → Int → Prop where
  | base : ∀ c r, inB g c r → onBorder g c r → pix g c r = 1 → Reaches g c r
  | step : ∀ c r c2 r2, Reaches g c r → adjP c r c2 r2 → inB g c2 r2 →
      pix g c2 r2 = 1 → Reaches g c2 r2

/-- A pixel the run has cleared: in bounds and now holding a value that
differs from the one the original grid g holds there. -/
def Cleared (g b : Bit2) (col row : Int) : Prop :=
  inB g col row ∧ pix b col row ≠ pix g col row

/-- Explicit row-major visit list: for each row of the grid, each column
left to right, with the value the cell currently holds. -/
def rowMajorList (b : Bit2) : List (Int × Int × Int) :=
  (List.range b.height.toNat).flatMap
    (fun (r : Nat) => (List.range b.width.toNat).map
      (fun (c : Nat) => ((c : Int), (r : Int), pix b (c : Int) (r : Int))))

/-- Explicit column-major visit list. -/
def colMajorList (b : Bit2) : List (Int × Int × Int) :=
  (List.range b.width.toNat).flatMap
    (fun (c : Nat) => (List.range b.height.toNat).map
      (fun (r : Nat) => ((c : Int), (r : Int), pix b (c : Int) (r : Int))))

/-- The slot mapping row * width + col is injective on in-range
coordinates: two distinct coordinate pairs never share a backing slot. -/
theorem slot_inj (w c c2 r r2 : Int) (hc0 : 0 ≤ c) (hcw : c < w)
    (hc20 : 0 ≤ c2) (hc2w : c2 < w) (hr0 : 0 ≤ r) (hr20 : 0 ≤ r2)
    (h : (r * w + c).toNat = (r2 * w + c2).toNat) : c = c2 ∧ r = r2 := by
  have hw : 0 < w := lt_of_le_of_lt hc0 hcw
  have e1 : 0 ≤ r * w := mul_nonneg hr0 (le_of_lt hw)
  have e2 : 0 ≤ r2 * w := mul_nonneg hr20 (le_of_lt hw)
  have h' : r * w + c = r2 * w + c2 := by omega
  rcases lt_trichotomy r r2 with h3 | h3 | h3
  · exfalso
    have hle : 1 * w ≤ (r2 - r) * w :=
      mul_le_mul_of_nonneg_right (by omega) (le_of_lt hw)
    rw [sub_mul] at hle
    omega
  · subst h3
    exact ⟨by omega, rfl⟩
  · exfalso
    have hle : 1 * w ≤ (r - r2) * w :=
      mul_le_mul_of_nonneg_right (by omega) (le_of_lt hw)
    rw [sub_mul] at hle
    omega

/-- Clearing a black pixel leaves 0 at its own coordinate. -/
theorem pix_setPix0_self (b : Bit2) (c r : Int) (hb : pix b c r = 1) :
    pix (setPix0 b c r) c r = 0 := by
  unfold pix setPix0 at *
  have hlen : (r * b.width + c).toNat < b.data.length := by
    by_contra hc
    push_neg at hc
    rw [List.getD_eq_getElem?_getD, List.getElem?_eq_none hc] at hb
    simp at hb
  simp only
  rw [List.getD_eq_getElem?_getD, List.getElem?_set_self hlen]
  simp

/-- Clearing one in-range pixel does not touch any other in-range pixel:
the slot mapping routes them to different slots. -/
theorem pix_setPix0_other (b : Bit2) (c r c2 r2 : Int)
    (hc0 : 0 ≤ c) (hcw : c < b.width) (hr0 : 0 ≤ r)
    (hc20 : 0 ≤ c2) (hc2w : c2 < b.width) (hr20 : 0 ≤ r2)
    (hne : ¬(c2 = c ∧ r2 = r)) :
    pix (setPix0 b c r) c2 r2 = pix b c2 r2 := by
  unfold pix setPix0
  have hidx : (r * b.width + c).toNat ≠ (r2 * b.width + c2).toNat := by
    intro he
    rcases slot_inj b.width c c2 r r2 hc0 hcw hc20 hc2w hr0 hr20 he with ⟨h1, h2⟩
    exact hne ⟨h1.symm, h2.symm⟩
  simp only
  rw [List.getD_eq_getElem?_getD, List.getD_eq_getElem?_getD,
    List.getElem?_set_ne hidx]

/-- Slot-level effect of a clear: every slot either becomes 0 or keeps its
previous value. -/
theorem getD_setPix0 (b : Bit2) (c r : Int) (i : Nat) :
    (setPix0 b c r).data.getD i 0 = 0 ∨
      (setPix0 b c r).data.getD i 0 = b.data.getD i 0 := by
  unfold setPix0
  by_cases he : (r * b.width + c).toNat = i
  · subst he
    by_cases hlen : (r * b.width + c).toNat < b.data.length
    · left
      simp only
      rw [List.getD_eq_getElem?_getD, List.getElem?_set_self hlen]
      simp
    · right
      simp only
      rw [List.set_eq_of_length_le (by omega)]
  · right
    simp only
    rw [List.getD_eq_getElem?_getD, List.getD_eq_getElem?_getD,
      List.getElem?_set_ne he]

/-- Simulation invariant of a flood-fill state b against the original grid
g: dimensions unchanged, every slot is either cleared to 0 or untouched,
and every cleared pixel was black in g, is white now, and is reachable
from the border through black pixels of g. -/
def SimState (g b : Bit2) : Prop :=
  b.width = g.width ∧ b.height = g.height ∧
  (∀ i : Nat, b.data.getD i 0 = 0 ∨ b.data.getD i 0 = g.data.getD i 0) ∧
  (∀ c r : Int, Cleared g b c r → pix g c r = 1 ∧ pix b c r = 0 ∧ Reaches g c r)

/-- Every queued coordinate is a cleared pixel. -/
def QInv (g b : Bit2) (q : List (Int × Int)) : Prop :=
  ∀ p ∈ q, Cleared g b p.1 p.2

/-- Seed-phase invariant: every cleared pixel still sits in the queue. -/
def AllQ (g b : Bit2) (q : List (Int × Int)) : Prop :=
  ∀ c r : Int, Cleared g b c r → (c, r) ∈ q

/-- Expansion-loop invariant: every cleared pixel either still waits in
the queue or already had all its black in-bounds neighbours cleared. -/
def ClosedQ (g b : Bit2) (q : List (Int × Int)) : Prop :=
  ∀ c r : Int, Cleared g b c r → ((c, r) ∈ q ∨
    ∀ c2 r2 : Int, adjP c r c2 r2 → inB g c2 r2 → pix g c2 r2 = 1 →
      Cleared g b c2 r2)

/-- Every black border pixel of g has been cleared. -/
def BorderDone (g b : Bit2) : Prop :=
  ∀ c r : Int, inB g c r → onBorder g c r → pix g c r = 1 → Cleared g b c r

/-- Under the simulation invariant a pixel is either already white or
still holds its original value. -/
theorem pix_sub (g b : Bit2) (hS : SimState g b) (c r : Int) :
    pix b c r = 0 ∨ pix b c r = pix g c r := by
  obtain ⟨hw, _, hsub, _⟩ := hS
  unfold pix
  rw [hw]
  exact hsub _

/-- Effect of a single enqueue test on the simulation state.  Requires a
justification that the tested pixel, if black in g, is border-reachable;
yields preservation of the invariant, monotonicity of the cleared set,
queue membership bookkeeping, and the guarantee that the tested pixel is
cleared afterwards whenever it is an in-bounds black pixel of g. -/
theorem enqueue_step (g b : Bit2) (q : List (Int × Int)) (c r : Int)
    (hS : SimState g b)
    (hJ : inB g c r → pix g c r = 1 → Reaches g c r) :
    SimState g (enqueue_if_black q b c r).2 ∧
    (∀ c0 r0 : Int, Cleared g b c0 r0 →
      Cleared g (enqueue_if_black q b c r).2 c0 r0) ∧
    (∀ p ∈ q, p ∈ (enqueue_if_black q b c r).1) ∧
    (∀ p ∈ (enqueue_if_black q b c r).1, p ∈ q ∨
      (p = (c, r) ∧ Cleared g (enqueue_if_black q b c r).2 c r)) ∧
    (inB g c r → pix g c r = 1 → Cleared g (enqueue_if_black q b c r).2 c r) ∧
    (∀ c0 r0 : Int, Cleared g (enqueue_if_black q b c r).2 c0 r0 →
      Cleared g b c0 r0 ∨
        ((c0, r0) = (c, r) ∧ (c, r) ∈ (enqueue_if_black q b c r).1)) := by
  obtain ⟨hw, hh, hsub, hclr⟩ := hS
  rw [enqueue_eq]
  split_ifs with h
  · -- the pixel is in bounds and black: it is cleared and enqueued
    obtain ⟨hc0, hcw, hr0, hrh, hpixb⟩ := h
    have hing : inB g c r := ⟨hc0, by omega, hr0, by omega⟩
    have hpixg : pix g c r = 1 := by
      rcases pix_sub g b ⟨hw, hh, hsub, hclr⟩ c r with h0 | he
      · rw [h0] at hpixb; exact absurd hpixb (by norm_num)
      · rw [← he]; exact hpixb
    have hR : Reaches g c r := hJ hing hpixg
    have hself : pix (setPix0 b c r) c r = 0 := pix_setPix0_self b c r hpixb
    have hother : ∀ c0 r0 : Int, inB g c0 r0 → ¬(c0 = c ∧ r0 = r) →
        pix (setPix0 b c r) c0 r0 = pix b c0 r0 := by
      intro c0 r0 hin0 hne0
      exact pix_setPix0_other b c r c0 r0 hc0 hcw hr0 hin0.1
        (by rw [hw]; exact hin0.2.1) hin0.2.2.1 hne0
    have hCnew : Cleared g (setPix0 b c r) c r :=
      ⟨hing, by rw [hself, hpixg]; norm_num⟩
    have hnewclr : ∀ c0 r0 : Int, Cleared g (setPix0 b c r) c0 r0 →
        Cleared g b c0 r0 ∨ (c0 = c ∧ r0 = r) := by
      intro c0 r0 ⟨hin0, hne0⟩
      by_cases hcc : c0 = c ∧ r0 = r
      · exact Or.inr hcc
      · exact Or.inl ⟨hin0, by rw [← hother c0 r0 hin0 hcc]; exact hne0⟩
    refine ⟨⟨hw, hh, ?_, ?_⟩, ?_, ?_, ?_, ?_, ?_⟩
    · intro i
      rcases getD_setPix0 b c r i with h0 | hkeep
      · exact Or.inl h0
      · rw [hkeep]; exact hsub i
    · intro c0 r0 hcl0
      rcases hnewclr c0 r0 hcl0 with hold | hcc
      · obtain ⟨h1, h2, h3⟩ := hclr c0 r0 hold
        refine ⟨h1, ?_, h3⟩
        by_cases hcc : c0 = c ∧ r0 = r
        · obtain ⟨e1, e2⟩ := hcc; subst e1; subst e2; exact hself
        · rw [hother c0 r0 hold.1 hcc]; exact h2
      · obtain ⟨e1, e2⟩ := hcc; subst e1; subst e2
        exact ⟨hpixg, hself, hR⟩
    · intro c0 r0 hcl0
      by_cases hcc : c0 = c ∧ r0 = r
      · obtain ⟨e1, e2⟩ := hcc; subst e1; subst e2; exact hCnew
      · exact ⟨hcl0.1, by rw [hother c0 r0 hcl0.1 hcc]; exact hcl0.2⟩
    · intro p hp
      exact List.mem_append_left _ hp
    · intro p hp
      rcases List.mem_append.mp hp with hp1 | hp2
      · exact Or.inl hp1
      · exact Or.inr ⟨List.mem_singleton.mp hp2, hCnew⟩
    · intro _ _
      exact hCnew
    · intro c0 r0 hcl0
      rcases hnewclr c0 r0 hcl0 with hold | hcc
      · exact Or.inl hold
      · obtain ⟨e1, e2⟩ := hcc; subst e1; subst e2
        exact Or.inr ⟨rfl, List.mem_append_right _ (List.mem_singleton.mpr rfl)⟩
  · -- the test fails: queue and grid are unchanged
    refine ⟨⟨hw, hh, hsub, hclr⟩, fun c0 r0 hc => hc, fun p hp => hp,
      fun p hp => Or.inl hp, ?_, fun c0 r0 hc => Or.inl hc⟩
    intro hing hpixg
    have hb0 : pix b c r = 0 := by
      rcases pix_sub g b ⟨hw, hh, hsub, hclr⟩ c r with h0 | he
      · exact h0
      · exfalso
        apply h
        obtain ⟨hc0, hcw, hr0, hrh⟩ := hing
        exact ⟨hc0, by omega, hr0, by omega, by rw [he, hpixg]⟩
    exact ⟨hing, by rw [hb0, hpixg]; norm_num⟩

/-- Effect of one full iteration of the expansion loop on the simulation
state: the invariant is preserved, the cleared set only grows, queued
coordinates stay queued or cleared, every black in-bounds neighbour of the
dequeued pixel ends cleared, and any pixel cleared during the iteration
either was cleared before or now sits in the queue. -/
theorem expand_step (g b : Bit2) (rest : List (Int × Int)) (c r : Int)
    (hS : SimState g b) (hQ : QInv g b rest) (hR : Reaches g c r) :
    SimState g (expand rest b c r).2 ∧
    (∀ c0 r0 : Int, Cleared g b c0 r0 → Cleared g (expand rest b c r).2 c0 r0) ∧
    QInv g (expand rest b c r).2 (expand rest b c r).1 ∧
    (∀ p ∈ rest, p ∈ (expand rest b c r).1) ∧
    (∀ c2 r2 : Int, adjP c r c2 r2 → inB g c2 r2 → pix g c2 r2 = 1 →
      Cleared g (expand rest b c r).2 c2 r2) ∧
    (∀ c0 r0 : Int, Cleared g (expand rest b c r).2 c0 r0 →
      Cleared g b c0 r0 ∨ (c0, r0) ∈ (expand rest b c r).1) := by
  have hJ1 : inB g (c - 1) r → pix g (c - 1) r = 1 → Reaches g (c - 1) r :=
    fun hin hp => Reaches.step c r (c - 1) r hR (Or.inl ⟨rfl, rfl⟩) hin hp
  have hJ2 : inB g (c + 1) r → pix g (c + 1) r = 1 → Reaches g (c + 1) r :=
    fun hin hp => Reaches.step c r (c + 1) r hR (Or.inr (Or.inl ⟨rfl, rfl⟩)) hin hp
  have hJ3 : inB g c (r - 1) → pix g c (r - 1) = 1 → Reaches g c (r - 1) :=
    fun hin hp =>
      Reaches.step c r c (r - 1) hR (Or.inr (Or.inr (Or.inl ⟨rfl, rfl⟩))) hin hp
  have hJ4 : inB g c (r + 1) → pix g c (r + 1) = 1 → Reaches g c (r + 1) :=
    fun hin hp =>
      Reaches.step c r c (r + 1) hR (Or.inr (Or.inr (Or.inr ⟨rfl, rfl⟩))) hin hp
  obtain ⟨S1, M1, K1, W1, T1, N1⟩ := enqueue_step g b rest (c - 1) r hS hJ1
  obtain ⟨S2, M2, K2, W2, T2, N2⟩ :=
    enqueue_step g (expA rest b c r).2 (expA rest b c r).1 (c + 1) r S1 hJ2
  obtain ⟨S3, M3, K3, W3, T3, N3⟩ :=
    enqueue_step g (expB rest b c r).2 (expB rest b c r).1 c (r - 1) S2 hJ3
  obtain ⟨S4, M4, K4, W4, T4, N4⟩ :=
    enqueue_step g (expC rest b c r).2 (expC rest b c r).1 c (r + 1) S3 hJ4
  refine ⟨S4, ?_, ?_, ?_, ?_, ?_⟩
  · intro c0 r0 h0
    exact M4 c0 r0 (M3 c0 r0 (M2 c0 r0 (M1 c0 r0 h0)))
  · intro p hp
    rcases W4 p hp with hp3 | ⟨he, hcl⟩
    · rcases W3 p hp3 with hp2 | ⟨he, hcl⟩
      · rcases W2 p hp2 with hp1 | ⟨he, hcl⟩
        · rcases W1 p hp1 with hp0 | ⟨he, hcl⟩
          · exact M4 _ _ (M3 _ _ (M2 _ _ (M1 _ _ (hQ p hp0))))
          · subst he
            exact M4 _ _ (M3 _ _ (M2 _ _ hcl))
        · subst he
          exact M4 _ _ (M3 _ _ hcl)
      · subst he
        exact M4 _ _ hcl
    · subst he
      exact hcl
  · intro p hp
    exact K4 _ (K3 _ (K2 _ (K1 _ hp)))
  · intro c2 r2 hadj hin hpix
    rcases hadj with ⟨e1, e2⟩ | ⟨e1, e2⟩ | ⟨e1, e2⟩ | ⟨e1, e2⟩ <;>
      subst e1 <;> subst e2
    · exact M4 _ _ (M3 _ _ (M2 _ _ (T1 hin hpix)))
    · exact M4 _ _ (M3 _ _ (T2 hin hpix))
    · exact M4 _ _ (T3 hin hpix)
    · exact T4 hin hpix
  · intro c0 r0 hcl
    rcases N4 c0 r0 hcl with h3 | ⟨he, hmem⟩
    · rcases N3 c0 r0 h3 with h2 | ⟨he, hmem⟩
      · rcases N2 c0 r0 h2 with h1 | ⟨he, hmem⟩
        · rcases N1 c0 r0 h1 with h0 | ⟨he, hmem⟩
          · exact Or.inl h0
          · rw [he]
            exact Or.inr (K4 _ (K3 _ (K2 _ hmem)))
        · rw [he]
          exact Or.inr (K4 _ (K3 _ hmem))
      · rw [he]
        exact Or.inr (K4 _ hmem)
    · rw [he]
      exact Or.inr hmem

/-- Master lemma of the expansion loop: starting from any state whose
queue holds only cleared, border-reachable pixels, and in which any
cleared pixel is either still queued or has all its black neighbours
cleared, the loop preserves the simulation invariant, only grows the
cleared set, and ends in a state where the cleared set is closed under
black 4-connected adjacency. -/
theorem bfs_spec (g : Bit2) : ∀ (b : Bit2) (q : List (Int × Int)),
    SimState g b → QInv g b q → ClosedQ g b q →
    SimState g (bfs_loop b q) ∧
    (∀ c0 r0 : Int, Cleared g b c0 r0 → Cleared g (bfs_loop b q) c0 r0) ∧
    ClosedQ g (bfs_loop b q) [] := by
  intro b q
  induction b, q using bfs_loop.induct with
  | case1 b =>
    intro hS hQ hC
    rw [bfs_loop]
    exact ⟨hS, fun c0 r0 h => h, hC⟩
  | case2 b col row rest ih =>
    intro hS hQ hC
    have hclP : Cleared g b col row := hQ (col, row) (List.mem_cons_self _ _)
    have hR : Reaches g col row := (hS.2.2.2 col row hclP).2.2
    have hQrest : QInv g b rest := fun p hp => hQ p (List.mem_cons_of_mem _ hp)
    obtain ⟨S4, M4, QI4, K4, T4, N4⟩ := expand_step g b rest col row hS hQrest hR
    have hC4 : ClosedQ g (expand rest b col row).2 (expand rest b col row).1 := by
      intro c0 r0 hcl0
      rcases N4 c0 r0 hcl0 with hold | hmem
      · rcases hC c0 r0 hold with hmemq | hnbr
        · rcases List.mem_cons.mp hmemq with he | hmem2
          · right
            intro c2 r2 hadj hin hpix
            rw [Prod.mk.injEq] at he
            obtain ⟨e1, e2⟩ := he
            subst e1
            subst e2
            exact T4 c2 r2 hadj hin hpix
          · exact Or.inl (K4 _ hmem2)
        · right
          intro c2 r2 hadj hin hpix
          exact M4 c2 r2 (hnbr c2 r2 hadj hin hpix)
      · exact Or.inl hmem
    obtain ⟨ihS, ihM, ihC⟩ := ih S4 QI4 hC4
    rw [bfs_loop]
    exact ⟨ihS, fun c0 r0 h0 => ihM c0 r0 (M4 c0 r0 h0), ihC⟩

/-- Every coordinate the seed phase tests lies on the border (whenever it
is in bounds at all). -/
theorem seedCoords_border (w h c r : Int) (hmem : (c, r) ∈ seedCoords w h) :
    c = 0 ∨ c = w - 1 ∨ r = 0 ∨ r = h - 1 := by
  unfold seedCoords at hmem
  rcases List.mem_append.mp hmem with h1 | h2
  · rcases List.mem_flatMap.mp h1 with ⟨a, _, hin⟩
    simp only [List.mem_cons, List.mem_singleton, Prod.mk.injEq] at hin
    rcases hin with ⟨_, e⟩ | ⟨_, e⟩ | hf
    · exact Or.inr (Or.inr (Or.inl e))
    · exact Or.inr (Or.inr (Or.inr e))
    · exact absurd hf (List.not_mem_nil _)
  · rcases List.mem_flatMap.mp h2 with ⟨a, _, hin⟩
    simp only [List.mem_cons, List.mem_singleton, Prod.mk.injEq] at hin
    rcases hin with ⟨e, _⟩ | ⟨e, _⟩ | hf
    · exact Or.inl e
    · exact Or.inr (Or.inl e)
    · exact absurd hf (List.not_mem_nil _)

/-- Every in-bounds border coordinate is tested by the seed phase. -/
theorem seedCoords_mem (w h c r : Int) (hc0 : 0 ≤ c) (hcw : c < w)
    (hr0 : 0 ≤ r) (hrh : r < h)
    (hb : c = 0 ∨ c = w - 1 ∨ r = 0 ∨ r = h - 1) :
    (c, r) ∈ seedCoords w h := by
  unfold seedCoords
  rw [List.mem_append]
  by_cases hr : r = 0 ∨ r = h - 1
  · left
    rw [List.mem_flatMap]
    refine ⟨c.toNat, by rw [List.mem_range]; omega, ?_⟩
    have he : ((c.toNat : Int)) = c := Int.toNat_of_nonneg hc0
    rcases hr with e | e
    · simp [he, e]
    · simp [he, e]
  · right
    push_neg at hr
    have hc : c = 0 ∨ c = w - 1 := by tauto
    rw [List.mem_flatMap]
    refine ⟨(r - 1).toNat, by rw [List.mem_range]; omega, ?_⟩
    have he : ((r - 1).toNat : Int) = r - 1 := Int.toNat_of_nonneg (by omega)
    have he2 : ((r - 1).toNat : Int) + 1 = r := by omega
    rcases hc with e | e
    · simp only [List.mem_cons, List.mem_singleton, Prod.mk.injEq]
      exact Or.inl ⟨e, by omega⟩
    · simp only [List.mem_cons, List.mem_singleton, Prod.mk.injEq]
      exact Or.inr (Or.inl ⟨e, by omega⟩)

/-- Master lemma of the seed phase: folding enqueue_if_black over a list
of border coordinates preserves the simulation invariant, keeps every
cleared pixel in the queue, only grows the cleared set, and clears every
in-bounds black pixel of the tested list. -/
theorem seed_spec (g : Bit2) : ∀ (L : List (Int × Int)) (q : List (Int × Int)) (b : Bit2),
    (∀ p ∈ L, inB g p.1 p.2 → onBorder g p.1 p.2) →
    SimState g b → QInv g b q → AllQ g b q →
    SimState g (L.foldl (fun t p => enqueue_if_black t.1 t.2 p.1 p.2) (q, b)).2 ∧
    QInv g (L.foldl (fun t p => enqueue_if_black t.1 t.2 p.1 p.2) (q, b)).2
      (L.foldl (fun t p => enqueue_if_black t.1 t.2 p.1 p.2) (q, b)).1 ∧
    AllQ g (L.foldl (fun t p => enqueue_if_black t.1 t.2 p.1 p.2) (q, b)).2
      (L.foldl (fun t p => enqueue_if_black t.1 t.2 p.1 p.2) (q, b)).1 ∧
    (∀ c0 r0 : Int, Cleared g b c0 r0 →
      Cleared g (L.foldl (fun t p => enqueue_if_black t.1 t.2 p.1 p.2) (q, b)).2 c0 r0) ∧
    (∀ p ∈ L, inB g p.1 p.2 → pix g p.1 p.2 = 1 →
      Cleared g (L.foldl (fun t p => enqueue_if_black t.1 t.2 p.1 p.2) (q, b)).2 p.1 p.2) := by
  intro L
  induction L with
  | nil =>
    intro q b _ hS hQ hA
    exact ⟨hS, hQ, hA, fun c0 r0 h => h, fun p hp => absurd hp (List.not_mem_nil _)⟩
  | cons p L ih =>
    intro q b hB hS hQ hA
    have hJ : inB g p.1 p.2 → pix g p.1 p.2 = 1 → Reaches g p.1 p.2 :=
      fun hin hpix =>
        Reaches.base p.1 p.2 hin (hB p (List.mem_cons_self _ _) hin) hpix
    obtain ⟨S1, M1, K1, W1, T1, N1⟩ := enqueue_step g b q p.1 p.2 hS hJ
    have hQ1 : QInv g (enqueue_if_black q b p.1 p.2).2 (enqueue_if_black q b p.1 p.2).1 := by
      intro p0 hp0
      rcases W1 p0 hp0 with hold | ⟨he, hcl⟩
      · exact M1 _ _ (hQ p0 hold)
      · rw [he]
        exact hcl
    have hA1 : AllQ g (enqueue_if_black q b p.1 p.2).2 (enqueue_if_black q b p.1 p.2).1 := by
      intro c0 r0 hcl0
      rcases N1 c0 r0 hcl0 with hold | ⟨he, hmem⟩
      · exact K1 _ (hA c0 r0 hold)
      · rw [he]
        exact hmem
    have hB1 : ∀ p0 ∈ L, inB g p0.1 p0.2 → onBorder g p0.1 p0.2 :=
      fun p0 hp0 => hB p0 (List.mem_cons_of_mem _ hp0)
    obtain ⟨ihS, ihQ, ihA, ihM, ihT⟩ :=
      ih (enqueue_if_black q b p.1 p.2).1 (enqueue_if_black q b p.1 p.2).2 hB1 S1 hQ1 hA1
    rw [List.foldl_cons]
    refine ⟨ihS, ihQ, ihA, ?_, ?_⟩
    · intro c0 r0 h0
      exact ihM c0 r0 (M1 c0 r0 h0)
    · intro p0 hp0 hin hpix
      rcases List.mem_cons.mp hp0 with he | hmem
      · subst he
        exact ihM _ _ (T1 hin hpix)
      · exact ihT p0 hmem hin hpix

/-- The black pixels of a reachable coordinate: reachability implies the
pixel is in bounds and black in g. -/
theorem reaches_black (g : Bit2) (c r : Int) (h : Reaches g c r) :
    pix g c r = 1 ∧ inB g c r := by
  induction h with
  | base c r hin hb hp => exact ⟨hp, hin⟩
  | step c r c2 r2 hR hadj hin hp ih => exact ⟨hp, hin⟩

/-- Combined invariant of the full flood fill: the final grid simulates
the original, every black border pixel is cleared, and the cleared set is
closed under black 4-connected adjacency. -/
theorem rbe_core (g : Bit2) :
    SimState g (remove_black_edges g) ∧
    BorderDone g (remove_black_edges g) ∧
    ClosedQ g (remove_black_edges g) [] := by
  have hS0 : SimState g g :=
    ⟨rfl, rfl, fun i => Or.inr rfl, fun c r hcl => absurd rfl hcl.2⟩
  have hQ0 : QInv g g [] := fun p hp => absurd hp (List.not_mem_nil _)
  have hA0 : AllQ g g [] := fun c r hcl => absurd rfl hcl.2
  have hB0 : ∀ p ∈ seedCoords g.width g.height,
      inB g p.1 p.2 → onBorder g p.1 p.2 := by
    intro p hp _
    have := seedCoords_border g.width g.height p.1 p.2 (by simpa using hp)
    exact this
  obtain ⟨S1, Q1, A1, M1, T1⟩ :=
    seed_spec g (seedCoords g.width g.height) [] g hB0 hS0 hQ0 hA0
  have hC1 : ClosedQ g
      ((seedCoords g.width g.height).foldl
        (fun t p => enqueue_if_black t.1 t.2 p.1 p.2) ([], g)).2
      ((seedCoords g.width g.height).foldl
        (fun t p => enqueue_if_black t.1 t.2 p.1 p.2) ([], g)).1 :=
    fun c r hcl => Or.inl (A1 c r hcl)
  obtain ⟨S2, M2, C2x⟩ := bfs_spec g _ _ S1 Q1 hC1
  refine ⟨S2, ?_, C2x⟩
  intro c r hin hb hpix
  apply M2
  apply T1 (c, r) ?_ hin hpix
  exact seedCoords_mem g.width g.height c r hin.1 hin.2.1 hin.2.2.1 hin.2.2.2 hb

/-- Full characterization of remove_black_edges: dimensions are preserved,
every border-reachable pixel ends white, and every in-bounds pixel that is
not border-reachable is unchanged. -/
theorem rbe_characterization (g : Bit2) :
    (remove_black_edges g).width = g.width ∧
    (remove_black_edges g).height = g.height ∧
    (∀ c r : Int, Reaches g c r → pix (remove_black_edges g) c r = 0) ∧
    (∀ c r : Int, inB g c r → ¬ Reaches g c r →
      pix (remove_black_edges g) c r = pix g c r) := by
  obtain ⟨hS, hBD, hCl⟩ := rbe_core g
  have hcomplete : ∀ c r : Int, Reaches g c r → Cleared g (remove_black_edges g) c r := by
    intro c r h
    induction h with
    | base c r hin hb hp => exact hBD c r hin hb hp
    | step c r c2 r2 hR hadj hin hp ih =>
      rcases hCl c r ih with hmem | hnbr
      · exact absurd hmem (List.not_mem_nil _)
      · exact hnbr c2 r2 hadj hin hp
  refine ⟨hS.1, hS.2.1, ?_, ?_⟩
  · intro c r h
    exact (hS.2.2.2 c r (hcomplete c r h)).2.1
  · intro c r hin hnr
    by_contra hne
    exact hnr (hS.2.2.2 c r ⟨hin, hne⟩).2.2

/-- Any pixel after a clear: either white or untouched. -/
theorem pix_setPix0_cases (b : Bit2) (c r c0 r0 : Int) :
    pix (setPix0 b c r) c0 r0 = 0 ∨ pix (setPix0 b c r) c0 r0 = pix b c0 r0 := by
  have h := getD_setPix0 b c r (r0 * b.width + c0).toNat
  unfold pix setPix0 at *
  simpa using h

/-- Trace invariant of the instrumented run: the coordinates seen so far
(dequeued ones followed by the queued ones) are pairwise distinct, all in
bounds, and all white in the current grid.  It is exactly what makes a
second enqueue of the same coordinate impossible: enqueueing requires the
pixel to be black. -/
def traceInv (w h : Int) (b : Bit2) (m : List (Int × Int)) : Prop :=
  m.Nodup ∧ ∀ p ∈ m, (0 ≤ p.1 ∧ p.1 < w ∧ 0 ≤ p.2 ∧ p.2 < h) ∧
    pix b p.1 p.2 = 0

/-- One enqueue test preserves the trace invariant: a coordinate can only
be appended while its pixel is black, and every previously seen coordinate
is white, so the appended coordinate is fresh. -/
theorem enqueue_traceInv (w h : Int) (b : Bit2) (q done : List (Int × Int))
    (c r : Int) (hw : b.width = w) (hh : b.height = h)
    (hI : traceInv w h b (done ++ q)) :
    traceInv w h (enqueue_if_black q b c r).2
      (done ++ (enqueue_if_black q b c r).1) ∧
    (enqueue_if_black q b c r).2.width = w ∧
    (enqueue_if_black q b c r).2.height = h := by
  rw [enqueue_eq]
  split_ifs with hcond
  · obtain ⟨hc0, hcw, hr0, hrh, hpixb⟩ := hcond
    refine ⟨⟨?_, ?_⟩, by simp [setPix0, hw], by simp [setPix0, hh]⟩
    · rw [← List.append_assoc, List.nodup_append]
      refine ⟨hI.1, List.nodup_singleton _, ?_⟩
      intro p hp hps
      rw [List.mem_singleton] at hps
      subst hps
      have h0 : pix b c r = 0 := (hI.2 _ hp).2
      rw [h0] at hpixb
      exact absurd hpixb (by norm_num)
    · intro p hp
      rw [← List.append_assoc, List.mem_append] at hp
      rcases hp with hp | hp
      · have h2 := hI.2 p hp
        refine ⟨h2.1, ?_⟩
        rcases pix_setPix0_cases b c r p.1 p.2 with h3 | h3
        · exact h3
        · rw [h3]
          exact h2.2
      · rw [List.mem_singleton] at hp
        subst hp
        exact ⟨⟨hc0, by show c < w; omega, hr0, by show r < h; omega⟩,
          pix_setPix0_self b c r hpixb⟩
  · exact ⟨hI, hw, hh⟩

/-- One full expansion iteration preserves the trace invariant. -/
theorem expand_traceInv (w h : Int) (b : Bit2) (rest done : List (Int × Int))
    (c r : Int) (hw : b.width = w) (hh : b.height = h)
    (hI : traceInv w h b (done ++ rest)) :
    traceInv w h (expand rest b c r).2 (done ++ (expand rest b c r).1) ∧
    (expand rest b c r).2.width = w ∧ (expand rest b c r).2.height = h := by
  obtain ⟨I1, W1, H1⟩ := enqueue_traceInv w h b rest done (c - 1) r hw hh hI
  obtain ⟨I2, W2, H2⟩ := enqueue_traceInv w h (expA rest b c r).2
    (expA rest b c r).1 done (c + 1) r W1 H1 I1
  obtain ⟨I3, W3, H3⟩ := enqueue_traceInv w h (expB rest b c r).2
    (expB rest b c r).1 done c (r - 1) W2 H2 I2
  exact enqueue_traceInv w h (expC rest b c r).2
    (expC rest b c r).1 done c (r + 1) W3 H3 I3

/-- The dequeue trace of the expansion loop: no coordinate is dequeued
twice, and every dequeued coordinate is in bounds. -/
theorem bfs_trace_inv (w h : Int) : ∀ (b : Bit2) (q done : List (Int × Int)),
    b.width = w → b.height = h → traceInv w h b (done ++ q) →
    (bfs_trace b q done).2.Nodup ∧
    (∀ p ∈ (bfs_trace b q done).2,
      0 ≤ p.1 ∧ p.1 < w ∧ 0 ≤ p.2 ∧ p.2 < h) := by
  intro b q done
  induction b, q, done using bfs_trace.induct with
  | case1 b done =>
    intro _ _ hI
    rw [bfs_trace]
    rw [List.append_nil] at hI
    exact ⟨hI.1, fun p hp => (hI.2 p hp).1⟩
  | case2 b done col row rest ih =>
    intro hw hh hI
    rw [bfs_trace]
    have hI2 : traceInv w h b ((done ++ [(col, row)]) ++ rest) := by
      rw [List.append_assoc]
      simpa using hI
    obtain ⟨I4, W4, H4⟩ :=
      expand_traceInv w h b rest (done ++ [(col, row)]) col row hw hh hI2
    exact ih W4 H4 I4

/-- The instrumented loop computes the same grid as the plain loop. -/
theorem bfs_trace_fst : ∀ (b : Bit2) (q done : List (Int × Int)),
    (bfs_trace b q done).1 = bfs_loop b q := by
  intro b q done
  induction b, q, done using bfs_trace.induct with
  | case1 b done =>
    rw [bfs_trace, bfs_loop]
  | case2 b done col row rest ih =>
    rw [bfs_trace, bfs_loop]
    exact ih

/-- The seed fold preserves the trace invariant (the trace is still empty,
so the invariant is over the queue alone). -/
theorem seed_traceInv (w h : Int) : ∀ (L q : List (Int × Int)) (b : Bit2),
    b.width = w → b.height = h → traceInv w h b q →
    traceInv w h (L.foldl (fun t p => enqueue_if_black t.1 t.2 p.1 p.2) (q, b)).2
      (L.foldl (fun t p => enqueue_if_black t.1 t.2 p.1 p.2) (q, b)).1 ∧
    (L.foldl (fun t p => enqueue_if_black t.1 t.2 p.1 p.2) (q, b)).2.width = w ∧
    (L.foldl (fun t p => enqueue_if_black t.1 t.2 p.1 p.2) (q, b)).2.height = h := by
  intro L
  induction L with
  | nil =>
    intro q b hw hh hI
    exact ⟨hI, hw, hh⟩
  | cons p L ih =>
    intro q b hw hh hI
    rw [List.foldl_cons]
    have h1 := enqueue_traceInv w h b q [] p.1 p.2 hw hh (by simpa using hI)
    rw [List.nil_append] at h1
    exact ih _ _ h1.2.1 h1.2.2 h1.1

/-- A duplicate-free list of in-bounds coordinates has at most
width * height elements. -/
theorem nodup_bounded_length (w h : Int) (l : List (Int × Int))
    (hnd : l.Nodup)
    (hb : ∀ p ∈ l, 0 ≤ p.1 ∧ p.1 < w ∧ 0 ≤ p.2 ∧ p.2 < h) :
    l.length ≤ w.toNat * h.toNat := by
  classical
  have hcard : l.toFinset.card = l.length := List.toFinset_card_of_nodup hnd
  have hsub : l.toFinset ⊆ (Finset.Ico (0 : Int) w) ×ˢ (Finset.Ico (0 : Int) h) := by
    intro p hp
    rw [List.mem_toFinset] at hp
    have h2 := hb p hp
    rw [Finset.mem_product, Finset.mem_Ico, Finset.mem_Ico]
    exact ⟨⟨h2.1, h2.2.1⟩, ⟨h2.2.2.1, h2.2.2.2⟩⟩
  have h3 := Finset.card_le_card hsub
  rw [hcard, Finset.card_product, Int.card_Ico, Int.card_Ico] at h3
  simpa using h3

/-- remove_black_edges unfolded to seed fold plus expansion loop. -/
theorem rbe_eq (g : Bit2) :
    remove_black_edges g =
      bfs_loop
        ((seedCoords g.width g.height).foldl
          (fun t p => enqueue_if_black t.1 t.2 p.1 p.2) ([], g)).2
        ((seedCoords g.width g.height).foldl
          (fun t p => enqueue_if_black t.1 t.2 p.1 p.2) ([], g)).1 := rfl

/-- remove_black_edges_trace unfolded likewise. -/
theorem rbe_trace_eq (g : Bit2) :
    remove_black_edges_trace g =
      bfs_trace
        ((seedCoords g.width g.height).foldl
          (fun t p => enqueue_if_black t.1 t.2 p.1 p.2) ([], g)).2
        ((seedCoords g.width g.height).foldl
          (fun t p => enqueue_if_black t.1 t.2 p.1 p.2) ([], g)).1 [] := rfl

/-- C2: remove_black_edges terminates with an empty queue after dequeuing
each coordinate at most once: the dequeue trace of the full run (the
coordinates the expansion loop removes from the queue until it is empty)
has no duplicates and is bounded by width * height, and the instrumented
run computes exactly the grid remove_black_edges computes.  Termination
itself is witnessed by bfs_loop being a total function whose measure
5 * blackCount + queue length strictly decreases at every dequeue. -/
theorem spec_C2 (g : Bit2) :
    (remove_black_edges_trace g).2.Nodup ∧
    (remove_black_edges_trace g).2.length ≤ g.width.toNat * g.height.toNat ∧
    (remove_black_edges_trace g).1 = remove_black_edges g := by
  have hI0 : traceInv g.width g.height g [] :=
    ⟨List.nodup_nil, fun p hp => absurd hp (List.not_mem_nil _)⟩
  obtain ⟨I1, W1, H1⟩ := seed_traceInv g.width g.height
    (seedCoords g.width g.height) [] g rfl rfl hI0
  have htr := bfs_trace_inv g.width g.height
    ((seedCoords g.width g.height).foldl
      (fun t p => enqueue_if_black t.1 t.2 p.1 p.2) ([], g)).2
    ((seedCoords g.width g.height).foldl
      (fun t p => enqueue_if_black t.1 t.2 p.1 p.2) ([], g)).1 [] W1 H1
    (by simpa using I1)
  have hlen := nodup_bounded_length g.width g.height _ htr.1 htr.2
  rw [rbe_trace_eq, rbe_eq]
  exact ⟨htr.1, hlen, bfs_trace_fst _ _ _⟩

/-- C10: the flood fill only writes 0: every slot of the result is 0 or
its original value, every pixel is white or unchanged, and a pixel black
after the call was already black before it. -/
theorem spec_C10 (g : Bit2) :
    (∀ i : Nat, (remove_black_edges g).data.getD i 0 = 0 ∨
      (remove_black_edges g).data.getD i 0 = g.data.getD i 0) ∧
    (∀ c r : Int, pix (remove_black_edges g) c r = 0 ∨
      pix (remove_black_edges g) c r = pix g c r) ∧
    (∀ c r : Int, pix (remove_black_edges g) c r = 1 → pix g c r = 1) := by
  obtain ⟨hS, _, _⟩ := rbe_core g
  refine ⟨hS.2.2.1, fun c r => pix_sub g _ hS c r, ?_⟩
  intro c r h1
  rcases pix_sub g _ hS c r with h0 | he
  · rw [h0] at h1
    exact absurd h1 (by norm_num)
  · rw [← he]
    exact h1

/-- If no tested seed coordinate passes the in-bounds-and-black test, the
seed fold is the identity. -/
theorem seed_noop : ∀ (L q : List (Int × Int)) (b : Bit2),
    (∀ p ∈ L, ¬(0 ≤ p.1 ∧ p.1 < b.width ∧ 0 ≤ p.2 ∧ p.2 < b.height ∧
      pix b p.1 p.2 = 1)) →
    L.foldl (fun t p => enqueue_if_black t.1 t.2 p.1 p.2) (q, b) = (q, b) := by
  intro L
  induction L with
  | nil => intro q b _; rfl
  | cons p L ih =>
    intro q b hL
    rw [List.foldl_cons]
    have h1 : enqueue_if_black q b p.1 p.2 = (q, b) := by
      rw [enqueue_eq]
      exact if_neg (hL p (List.mem_cons_self _ _))
    rw [h1]
    exact ih q b (fun p2 hp2 => hL p2 (List.mem_cons_of_mem _ hp2))

/-- C4: remove_black_edges is idempotent.  After one run no border pixel
is black any more, so the second run tests every seed coordinate in vain,
enqueues nothing and returns the grid untouched. -/
theorem spec_C4 (g : Bit2) :
    remove_black_edges (remove_black_edges g) = remove_black_edges g := by
  obtain ⟨hWeq, hHeq, hcls, hunch⟩ := rbe_characterization g
  have hb : ∀ p ∈ seedCoords (remove_black_edges g).width
      (remove_black_edges g).height,
      ¬(0 ≤ p.1 ∧ p.1 < (remove_black_edges g).width ∧ 0 ≤ p.2 ∧
        p.2 < (remove_black_edges g).height ∧
        pix (remove_black_edges g) p.1 p.2 = 1) := by
    intro p hp hcond
    obtain ⟨h1, h2, h3, h4, h5⟩ := hcond
    have hinE : inB g p.1 p.2 :=
      ⟨h1, by rw [← hWeq]; exact h2, h3, by rw [← hHeq]; exact h4⟩
    have hbord : onBorder g p.1 p.2 := by
      have hb2 := seedCoords_border (remove_black_edges g).width
        (remove_black_edges g).height p.1 p.2 (by simpa using hp)
      rw [hWeq, hHeq] at hb2
      exact hb2
    by_cases hR : Reaches g p.1 p.2
    · have h6 := hcls p.1 p.2 hR
      rw [h6] at h5
      exact absurd h5 (by norm_num)
    · have h6 := hunch p.1 p.2 hinE hR
      apply hR
      exact Reaches.base p.1 p.2 hinE hbord (by rw [← h6]; exact h5)
  rw [rbe_eq (remove_black_edges g), seed_noop _ _ _ hb, bfs_loop]

/-- In a well-formed grid the slot of an in-bounds coordinate lies inside
the backing store. -/
theorem idx_lt_length (g : Bit2) (c r : Int) (hwf : wellFormed g)
    (hin : inB g c r) : (r * g.width + c).toNat < g.data.length := by
  obtain ⟨hc0, hcw, hr0, hrh⟩ := hin
  have hw : 0 < g.width := lt_of_le_of_lt hc0 hcw
  have h1 : r * g.width ≤ (g.height - 1) * g.width :=
    mul_le_mul_of_nonneg_right (by omega) (le_of_lt hw)
  rw [sub_mul, one_mul] at h1
  have h2 : r * g.width + c < g.width * g.height := by
    rw [mul_comm g.width g.height]
    have h3 : 0 ≤ r * g.width := mul_nonneg hr0 (le_of_lt hw)
    omega
  rw [hwf]
  have h3 : 0 ≤ r * g.width := mul_nonneg hr0 (le_of_lt hw)
  omega

/-- Bit2_get succeeds on every in-bounds coordinate and returns the raw
pixel value. -/
theorem get_ok_of_inB (b : Bit2) (c r : Int) (hin : inB b c r) :
    Bit2_get b c r = Except.ok (pix b c r) := by
  unfold Bit2_get pix
  exact if_pos hin

/-- C5: get after put.  For a well-formed grid, an in-bounds coordinate
and a legal bit value, Bit2_put succeeds, returns the previous value held
at the slot of (col, row), and a subsequent Bit2_get at the same
coordinate returns the value just written: the slot mapping
row * width + col routes each coordinate pair to exactly one slot. -/
theorem spec_C5 (g : Bit2) (c r v : Int) (hwf : wellFormed g)
    (hin : inB g c r) (hv : v = 0 ∨ v = 1) :
    ∃ g2 : Bit2, Bit2_put g c r v = Except.ok (pix g c r, g2) ∧
      Bit2_get g2 c r = Except.ok v := by
  have hlen : (r * g.width + c).toNat < g.data.length := idx_lt_length g c r hwf hin
  have hin2 : 0 ≤ c ∧ c < g.width ∧ 0 ≤ r ∧ r < g.height := hin
  refine ⟨{ g with data := g.data.set (r * g.width + c).toNat v }, ?_, ?_⟩
  · unfold Bit2_put pix
    rw [if_pos hin2, if_pos hv]
  · simp only [Bit2_get]
    rw [if_pos hin2]
    rw [List.getD_eq_getElem?_getD, List.getElem?_set_self hlen]
    rfl

/-- C6: bounds and value failures of the checked accessors.  Bit2_get and
Bit2_put fail with OutOfBounds exactly on out-of-bounds coordinates;
in bounds, Bit2_put fails with InvalidValue exactly when the value is
neither 0 nor 1.  Bit2_get returns no grid at all (its type is a plain
value), so it has no side effect. -/
theorem spec_C6 (g : Bit2) (c r v : Int) :
    ((Bit2_get g c r = Except.error Bit2Err.OutOfBounds) ↔ ¬ inB g c r) ∧
    ((Bit2_put g c r v = Except.error Bit2Err.OutOfBounds) ↔ ¬ inB g c r) ∧
    (inB g c r →
      ((Bit2_put g c r v = Except.error Bit2Err.InvalidValue) ↔
        ¬(v = 0 ∨ v = 1))) := by
  unfold Bit2_get Bit2_put inB
  by_cases h : 0 ≤ c ∧ c < g.width ∧ 0 ≤ r ∧ r < g.height
  · rw [if_pos h, if_pos h]
    refine ⟨by simp [h], ?_, ?_⟩
    · by_cases hv : v = 0 ∨ v = 1
      · simp [hv, h]
      · simp [hv, h]
    · intro _
      by_cases hv : v = 0 ∨ v = 1 <;> simp [hv]
  · rw [if_neg h, if_neg h]
    simp [h]

/-- C7: Bit2_new fails with InvalidDimensions exactly on a non-positive
width or height, and otherwise yields a grid whose every in-bounds pixel
reads 0. -/
theorem spec_C7 (w h : Int) :
    ((Bit2_new w h = Except.error Bit2Err.InvalidDimensions) ↔
      (w ≤ 0 ∨ h ≤ 0)) ∧
    (∀ g : Bit2, Bit2_new w h = Except.ok g →
      ∀ c r : Int, inB g c r → Bit2_get g c r = Except.ok 0) := by
  constructor
  · unfold Bit2_new
    by_cases hd : 0 < w ∧ 0 < h
    · rw [if_pos hd]
      simp only [reduceCtorEq, false_iff]
      omega
    · rw [if_neg hd]
      simp only [Except.error.injEq, true_iff]
      omega
  · intro g hg c r hin
    unfold Bit2_new at hg
    split_ifs at hg with hd
    · rw [Except.ok.injEq] at hg
      subst hg
      rw [get_ok_of_inB _ _ _ hin]
      unfold pix
      simp only
      rw [List.getD_eq_getElem?_getD, List.getElem?_replicate]
      split_ifs <;> rfl

/-- C9: the bounds guard of enqueue_if_black runs before any grid access
and implies that both accesses succeed, so the flood fill can never reach
the OutOfBounds branch: under the guard Bit2_get and Bit2_put return ok,
enqueue_if_black reduces to its guarded normal form with no error path,
and remove_black_edges always returns a grid of the same dimensions. -/
theorem spec_C9 (b : Bit2) (q : List (Int × Int)) (c r : Int) :
    ((0 ≤ c ∧ c < b.width ∧ 0 ≤ r ∧ r < b.height) →
      (∃ v : Int, Bit2_get b c r = Except.ok v) ∧
      (∃ pr : Int × Bit2, Bit2_put b c r 0 = Except.ok pr)) ∧
    (enqueue_if_black q b c r =
      if 0 ≤ c ∧ c < b.width ∧ 0 ≤ r ∧ r < b.height ∧ pix b c r = 1 then
        (q ++ [(c, r)], setPix0 b c r)
      else (q, b)) ∧
    (remove_black_edges b).width = b.width ∧
    (remove_black_edges b).height = b.height := by
  refine ⟨?_, enqueue_eq q b c r, (rbe_characterization b).1,
    (rbe_characterization b).2.1⟩
  intro h
  constructor
  · exact ⟨pix b c r, get_ok_of_inB b c r h⟩
  · unfold Bit2_put
    rw [if_pos h, if_pos (Or.inl rfl)]
    exact ⟨_, rfl⟩

/-- How often the top-and-bottom seed scan tests a given coordinate:
exactly once for each pixel of row 0 or row height-1 with column below n,
never otherwise (for grids at least two rows tall, so that the two rows
are distinct). -/
theorem count_seed_top (h c r : Int) (hh : 2 ≤ h) : ∀ n : Nat,
    List.count (c, r) ((List.range n).flatMap
      (fun k => [((k : Int), 0), ((k : Int), h - 1)])) =
    if 0 ≤ c ∧ c < (n : Int) ∧ (r = 0 ∨ r = h - 1) then 1 else 0 := by
  intro n
  induction n with
  | zero =>
    simp only [List.range_zero, List.flatMap_nil, List.count_nil]
    rw [if_neg (by omega)]
  | succ n ih =>
    rw [List.range_succ, List.flatMap_append, List.count_append, ih]
    simp only [List.flatMap_cons, List.flatMap_nil, List.append_nil,
      List.count_cons, List.count_nil, beq_iff_eq, Prod.mk.injEq]
    split_ifs <;> omega

/-- How often the left-and-right seed scan tests a given coordinate:
exactly once for each pixel of column 0 or column width-1 whose row lies
in [1, n], never otherwise (for grids at least two columns wide). -/
theorem count_seed_side (w c r : Int) (hw : 2 ≤ w) : ∀ n : Nat,
    List.count (c, r) ((List.range n).flatMap
      (fun k => [(0, (k : Int) + 1), (w - 1, (k : Int) + 1)])) =
    if (c = 0 ∨ c = w - 1) ∧ 1 ≤ r ∧ r ≤ (n : Int) then 1 else 0 := by
  intro n
  induction n with
  | zero =>
    simp only [List.range_zero, List.flatMap_nil, List.count_nil]
    rw [if_neg (by omega)]
  | succ n ih =>
    rw [List.range_succ, List.flatMap_append, List.count_append, ih]
    simp only [List.flatMap_cons, List.flatMap_nil, List.append_nil,
      List.count_cons, List.count_nil, beq_iff_eq, Prod.mk.injEq]
    split_ifs <;> omega

/-- C3 (amended): for grids with width at least 2 and height at least 2,
the seed phase tests each border pixel exactly once and tests nothing
else; in particular no corner is tested twice.  (In the degenerate cases
width = 1 or height = 1 the claim as stated fails: the two scans of the
single row or column coincide and each such border pixel is tested twice,
see the counterexample.) -/
theorem spec_C3 (w h : Int) (hw : 2 ≤ w) (hh : 2 ≤ h) (c r : Int) :
    List.count (c, r) (seedCoords w h) =
      if 0 ≤ c ∧ c < w ∧ 0 ≤ r ∧ r < h ∧
          (c = 0 ∨ c = w - 1 ∨ r = 0 ∨ r = h - 1)
      then 1 else 0 := by
  unfold seedCoords
  rw [List.count_append, count_seed_top h c r hh w.toNat,
    count_seed_side w c r hw (h - 2).toNat]
  have h1 : ((w.toNat : Int)) = w := by omega
  have h2 : (((h - 2).toNat : Int)) = h - 2 := by omega
  rw [h1, h2]
  split_ifs <;> omega

/-- Counterexample to C3 as frozen: on a 1 x 1 grid (positive width and
height) the seed phase tests the single border pixel (0, 0) twice, once as
(col, 0) and once as (col, height - 1), because row 0 and row height - 1
coincide. -/
theorem spec_C3_counterexample :
    seedCoords 1 1 = [((0 : Int), (0 : Int)), ((0 : Int), (0 : Int))] ∧
    List.count ((0 : Int), (0 : Int)) (seedCoords 1 1) = 2 := by
  constructor
  · rfl
  · rfl

/-- Witness for the amended C3 at the concrete grid dimensions 2 x 2: the
corner (0, 0) is tested exactly once. -/
theorem spec_C3_witness :
    (2 : Int) ≤ 2 ∧
    List.count ((0 : Int), (0 : Int)) (seedCoords 2 2) = 1 := by
  constructor
  · norm_num
  · rw [spec_C3 2 2 (by norm_num) (by norm_num) 0 0]
    norm_num

/-- Congruence for foldl over functions that agree on the list members. -/
theorem foldl_congr_mem {α β : Type} (l : List α) (f1 f2 : β → α → β)
    (s : β) (h : ∀ a ∈ l, ∀ s2 : β, f1 s2 a = f2 s2 a) :
    l.foldl f1 s = l.foldl f2 s := by
  induction l generalizing s with
  | nil => rfl
  | cons a l ih =>
    rw [List.foldl_cons, List.foldl_cons, h a (List.mem_cons_self _ _)]
    exact ih _ (fun a2 ha2 s2 => h a2 (List.mem_cons_of_mem _ ha2) s2)

/-- Folding over a flattened list is the nested fold. -/
theorem foldl_flatMap {α γ β : Type} (l : List α) (gf : α → List γ)
    (f : β → γ → β) (s : β) :
    (l.flatMap gf).foldl f s =
      l.foldl (fun s2 a => (gf a).foldl f s2) s := by
  induction l generalizing s with
  | nil => rfl
  | cons a l ih =>
    rw [List.flatMap_cons, List.foldl_append, List.foldl_cons, ih]

/-- Bit2_map_row_major is the fold of the visitor over the explicit
row-major visit list: same cells, same order, same values. -/
theorem map_row_major_eq (b : Bit2) {σ : Type}
    (f : Int → Int → Int → σ → σ) (cl : σ) :
    Bit2_map_row_major b f cl =
      (rowMajorList b).foldl (fun s t => f t.1 t.2.1 t.2.2 s) cl := by
  unfold Bit2_map_row_major rowMajorList
  rw [foldl_flatMap]
  apply foldl_congr_mem
  intro r hr s
  rw [List.foldl_map]
  apply foldl_congr_mem
  intro c hc s2
  rw [List.mem_range] at hr hc
  have hin : inB b (c : Int) (r : Int) := ⟨by omega, by omega, by omega, by omega⟩
  rw [get_ok_of_inB b (c : Int) (r : Int) hin]

/-- Bit2_map_col_major is the fold of the visitor over the explicit
column-major visit list. -/
theorem map_col_major_eq (b : Bit2) {σ : Type}
    (f : Int → Int → Int → σ → σ) (cl : σ) :
    Bit2_map_col_major b f cl =
      (colMajorList b).foldl (fun s t => f t.1 t.2.1 t.2.2 s) cl := by
  unfold Bit2_map_col_major colMajorList
  rw [foldl_flatMap]
  apply foldl_congr_mem
  intro c hc s
  rw [List.foldl_map]
  apply foldl_congr_mem
  intro r hrr s2
  rw [List.mem_range] at hc hrr
  have hin : inB b (c : Int) (r : Int) := ⟨by omega, by omega, by omega, by omega⟩
  rw [get_ok_of_inB b (c : Int) (r : Int) hin]

/-- How often a coordinate occurs in one visited row. -/
theorem count_row (c r rr : Int) : ∀ n : Nat,
    List.count (c, r) ((List.range n).map (fun (k : Nat) => ((k : Int), rr))) =
      if 0 ≤ c ∧ c < (n : Int) ∧ r = rr then 1 else 0 := by
  intro n
  induction n with
  | zero =>
    simp only [List.range_zero, List.map_nil, List.count_nil]
    rw [if_neg (by omega)]
  | succ n ih =>
    rw [List.range_succ, List.map_append, List.count_append, ih]
    simp only [List.map_cons, List.map_nil, List.count_cons, List.count_nil,
      beq_iff_eq, Prod.mk.injEq]
    split_ifs <;> omega

/-- How often a coordinate occurs in one visited column. -/
theorem count_col (c r cc : Int) : ∀ n : Nat,
    List.count (c, r) ((List.range n).map (fun (k : Nat) => (cc, (k : Int)))) =
      if c = cc ∧ 0 ≤ r ∧ r < (n : Int) then 1 else 0 := by
  intro n
  induction n with
  | zero =>
    simp only [List.range_zero, List.map_nil, List.count_nil]
    rw [if_neg (by omega)]
  | succ n ih =>
    rw [List.range_succ, List.map_append, List.count_append, ih]
    simp only [List.map_cons, List.map_nil, List.count_cons, List.count_nil,
      beq_iff_eq, Prod.mk.injEq]
    split_ifs <;> omega

/-- How often a coordinate occurs in the row-major enumeration of an
n-columns by m-rows grid: exactly once when in bounds. -/
theorem count_pairs_rm (c r : Int) (n : Nat) : ∀ m : Nat,
    List.count (c, r) ((List.range m).flatMap
      (fun (rr : Nat) => (List.range n).map (fun (k : Nat) => ((k : Int), (rr : Int))))) =
      if 0 ≤ c ∧ c < (n : Int) ∧ 0 ≤ r ∧ r < (m : Int) then 1 else 0 := by
  intro m
  induction m with
  | zero =>
    simp only [List.range_zero, List.flatMap_nil, List.count_nil]
    rw [if_neg (by omega)]
  | succ m ih =>
    rw [List.range_succ, List.flatMap_append, List.count_append, ih]
    simp only [List.flatMap_cons, List.flatMap_nil, List.append_nil]
    rw [count_row c r (m : Int) n]
    split_ifs <;> omega

/-- How often a coordinate occurs in the column-major enumeration. -/
theorem count_pairs_cm (c r : Int) (m : Nat) : ∀ n : Nat,
    List.count (c, r) ((List.range n).flatMap
      (fun (cc : Nat) => (List.range m).map (fun (k : Nat) => ((cc : Int), (k : Int))))) =
      if 0 ≤ c ∧ c < (n : Int) ∧ 0 ≤ r ∧ r < (m : Int) then 1 else 0 := by
  intro n
  induction n with
  | zero =>
    simp only [List.range_zero, List.flatMap_nil, List.count_nil]
    rw [if_neg (by omega)]
  | succ n ih =>
    rw [List.range_succ, List.flatMap_append, List.count_append, ih]
    simp only [List.flatMap_cons, List.flatMap_nil, List.append_nil]
    rw [count_col c r (n : Int) m]
    split_ifs <;> omega

/-- The coordinates of the row-major visit list are the plain row-major
pair enumeration. -/
theorem rowMajor_pairs (b : Bit2) :
    (rowMajorList b).map (fun t => (t.1, t.2.1)) =
      (List.range b.height.toNat).flatMap
        (fun (r : Nat) => (List.range b.width.toNat).map
          (fun (c : Nat) => ((c : Int), (r : Int)))) := by
  unfold rowMajorList
  simp only [List.map_flatMap, List.map_map]
  rfl

/-- The coordinates of the column-major visit list are the plain
column-major pair enumeration. -/
theorem colMajor_pairs (b : Bit2) :
    (colMajorList b).map (fun t => (t.1, t.2.1)) =
      (List.range b.width.toNat).flatMap
        (fun (c : Nat) => (List.range b.height.toNat).map
          (fun (r : Nat) => ((c : Int), (r : Int)))) := by
  unfold colMajorList
  simp only [List.map_flatMap, List.map_map]
  rfl

/-- C8: the traversals.  Bit2_map_row_major applies the visitor exactly
along the row-major visit list (row 0 first, all its columns left to
right, then row 1, and so on; rowMajorList enumerates the rows in that
order by construction) and Bit2_map_col_major along the column-major one,
for every visitor and every accumulator; and each in-bounds cell occurs
exactly once in each list, so the visitor runs exactly once per cell with
that cell's coordinates and current value. -/
theorem spec_C8 (b : Bit2) :
    (∀ (σ : Type) (f : Int → Int → Int → σ → σ) (cl : σ),
      Bit2_map_row_major b f cl =
        (rowMajorList b).foldl (fun s t => f t.1 t.2.1 t.2.2 s) cl) ∧
    (∀ (σ : Type) (f : Int → Int → Int → σ → σ) (cl : σ),
      Bit2_map_col_major b f cl =
        (colMajorList b).foldl (fun s t => f t.1 t.2.1 t.2.2 s) cl) ∧
    (∀ c r : Int, inB b c r →
      List.count (c, r) ((rowMajorList b).map (fun t => (t.1, t.2.1))) = 1 ∧
      List.count (c, r) ((colMajorList b).map (fun t => (t.1, t.2.1))) = 1) := by
  refine ⟨fun σ f cl => map_row_major_eq b f cl,
    fun σ f cl => map_col_major_eq b f cl, ?_⟩
  intro c r hin
  obtain ⟨hc0, hcw, hr0, hrh⟩ := hin
  constructor
  · rw [rowMajor_pairs, count_pairs_rm c r b.width.toNat b.height.toNat]
    rw [if_pos (by omega)]
  · rw [colMajor_pairs, count_pairs_cm c r b.height.toNat b.width.toNat]
    rw [if_pos (by omega)]

/-- A 1 x 1 grid holding a single black pixel (scenario: the sole pixel
lies on every border at once). -/
def gOne : Bit2 := { width := 1, height := 1, data := [1] }

/-- A 2 x 2 grid with one black pixel at (1, 0). -/
def gTwo : Bit2 := { width := 2, height := 2, data := [0, 1, 0, 0] }

/-- C1: functional correctness of the flood fill.  For every grid with
positive dimensions and every in-bounds pixel: if the pixel lies on a
4-connected black path to the border of the original grid it is white
afterwards; if not, it is unchanged; and lying on such a path means it was
black in the original grid.  Hence every pixel still black has no black
path to the border, and every changed pixel was black and on such a
path. -/
theorem spec_C1 (g : Bit2) (_hw : 0 < g.width) (_hh : 0 < g.height) :
    ∀ c r : Int, inB g c r →
      (Reaches g c r → pix (remove_black_edges g) c r = 0) ∧
      (¬ Reaches g c r → pix (remove_black_edges g) c r = pix g c r) ∧
      (Reaches g c r → pix g c r = 1) := by
  intro c r hin
  exact ⟨fun h => (rbe_characterization g).2.2.1 c r h,
    fun h => (rbe_characterization g).2.2.2 c r hin h,
    fun h => (reaches_black g c r h).1⟩

/-- Witness for C1 on the concrete 1 x 1 black grid: its single pixel is
border-reachable and is cleared. -/
theorem spec_C1_witness :
    0 < gOne.width ∧ 0 < gOne.height ∧ inB gOne 0 0 ∧
    pix (remove_black_edges gOne) 0 0 = 0 := by
  refine ⟨by decide, by decide, by decide, ?_⟩
  exact (spec_C1 gOne (by decide) (by decide) 0 0 (by decide)).1
    (Reaches.base 0 0 (by decide) (by decide) (by decide))

/-- Witness for C5 on a concrete 2 x 2 grid: putting 1 at (1, 0) returns
the previous value 1 stored there and a grid whose (1, 0) reads 1. -/
theorem spec_C5_witness :
    wellFormed gTwo ∧ inB gTwo 1 0 ∧
    (∃ g2 : Bit2, Bit2_put gTwo 1 0 1 = Except.ok (pix gTwo 1 0, g2) ∧
      Bit2_get g2 1 0 = Except.ok 1) := by
  refine ⟨by decide, by decide, ?_⟩
  exact spec_C5 gTwo 1 0 1 (by decide) (by decide) (Or.inr rfl)
